import Mathlib

/-!
# Verification of the label-template merge backend

A shallow embedding of the template field-extraction / mail-merge engine and
the folder descendant-closure algorithm of the backend (`src/index.ts`),
together with proofs of the specified properties.

Strings are modelled by Lean `String` / `List Char`; the JS regex
`/\{\{([A-Za-z0-9_]+)\}\}/g` is modelled by an explicit scanner over the
character list.  Merge rows (plain JS objects with string values) are
modelled as association lists with first-match lookup; an absent key is
`none`, mirroring `undefined`.
-/

namespace TemBe

/-- A character matched by the regex character class `[A-Za-z0-9_]`. -/
def isWordChar (c : Char) : Bool :=
  c.isAlpha || c.isDigit || c = '_'

/-- One attempt of the anchored regex `\{\{([A-Za-z0-9_]+)\}\}` at the head of
the character list: on success returns the captured name together with the
characters after the match.  Because the name class contains neither brace,
the greedy `+` with backtracking is equivalent to taking the maximal run of
word characters and then requiring the two closing braces. -/
def matchPlaceholderAt : List Char → Option (List Char × List Char)
  | c1 :: c2 :: rest =>
    if c1 = '{' ∧ c2 = '{' then
      let nm := rest.takeWhile isWordChar
      if nm.isEmpty then none
      else
        match rest.dropWhile isWordChar with
        | d1 :: d2 :: tail => if d1 = '}' ∧ d2 = '}' then some (nm, tail) else none
        | _ => none
    else none
  | _ => none

theorem takeWhile_append_all {p : Char → Bool} {nm : List Char} (h : ∀ c ∈ nm, p c)
    {y : Char} (hy : ¬ p y) (ys : List Char) :
    (nm ++ y :: ys).takeWhile p = nm := by
  induction nm with
  | nil => simp [List.takeWhile, hy]
  | cons c cs ih =>
    have hc : p c := h c (by simp)
    simp only [List.cons_append, List.takeWhile_cons, hc, if_true]
    simp [ih (fun d hd => h d (by simp [hd]))]

theorem dropWhile_append_all {p : Char → Bool} {nm : List Char} (h : ∀ c ∈ nm, p c)
    {y : Char} (hy : ¬ p y) (ys : List Char) :
    (nm ++ y :: ys).dropWhile p = y :: ys := by
  induction nm with
  | nil => simp [List.dropWhile, hy]
  | cons c cs ih =>
    have hc : p c := h c (by simp)
    simp only [List.cons_append, List.dropWhile_cons, hc, if_true]
    exact ih (fun d hd => h d (by simp [hd]))

/-- Soundness of the head matcher: a successful match decomposes the input. -/
theorem matchPlaceholderAt_some {s : List Char} {nm tail : List Char}
    (h : matchPlaceholderAt s = some (nm, tail)) :
    s = '{' :: '{' :: (nm ++ '}' :: '}' :: tail) ∧ nm ≠ [] ∧ ∀ c ∈ nm, isWordChar c := by
  match s with
  | [] => simp [matchPlaceholderAt] at h
  | [c1] => simp [matchPlaceholderAt] at h
  | c1 :: c2 :: rest =>
    simp only [matchPlaceholderAt] at h
    by_cases hb : c1 = '{' ∧ c2 = '{'
    · simp only [hb, and_self, if_true] at h
      by_cases he : (rest.takeWhile isWordChar).isEmpty
      · simp [he] at h
      · simp only [he, if_false] at h
        match hd : rest.dropWhile isWordChar with
        | [] => rw [hd] at h; simp at h
        | [d1] => rw [hd] at h; simp at h
        | d1 :: d2 :: t =>
          rw [hd] at h
          by_cases hbr : d1 = '}' ∧ d2 = '}'
          · simp [hbr, he] at h
            obtain ⟨h1, h2⟩ := h
            subst h1; subst h2
            obtain ⟨hb1, hb2⟩ := hb
            obtain ⟨hd1, hd2⟩ := hbr
            subst hb1; subst hb2; subst hd1; subst hd2
            refine ⟨?_, ?_, ?_⟩
            · have hsplit := List.takeWhile_append_dropWhile (p := isWordChar) (l := rest)
              rw [hd] at hsplit
              conv_lhs => rw [← hsplit]
            · intro hnil; rw [hnil] at he; simp at he
            · intro c hc; exact List.mem_takeWhile_imp hc
          · simp [hbr] at h
    · simp [hb] at h

/-- Completeness of the head matcher: a well-formed placeholder at the head
is matched, with the maximal-run name. -/
theorem matchPlaceholderAt_complete {nm tail : List Char}
    (hne : nm ≠ []) (hw : ∀ c ∈ nm, isWordChar c) :
    matchPlaceholderAt ('{' :: '{' :: (nm ++ '}' :: '}' :: tail)) = some (nm, tail) := by
  have hbr : ¬ isWordChar '}' := by decide
  have ht : (nm ++ '}' :: '}' :: tail).takeWhile isWordChar = nm :=
    takeWhile_append_all hw hbr _
  have hd : (nm ++ '}' :: '}' :: tail).dropWhile isWordChar = '}' :: '}' :: tail :=
    dropWhile_append_all hw hbr _
  simp only [matchPlaceholderAt, ht, hd]
  simp [List.isEmpty_iff, hne]

theorem matchPlaceholderAt_some_length {s nm tail : List Char}
    (h : matchPlaceholderAt s = some (nm, tail)) :
    s.length = nm.length + tail.length + 4 := by
  obtain ⟨hs, -, -⟩ := matchPlaceholderAt_some h
  subst hs; simp; omega

theorem matchPlaceholderAt_tail_lt {s nm tail : List Char}
    (h : matchPlaceholderAt s = some (nm, tail)) : tail.length < s.length := by
  have := matchPlaceholderAt_some_length h
  omega

/-- The scan performed by `String.prototype.matchAll` with the global regex
(the loop of `extractFieldsFromItems`): all captured names, left to right;
after a match the scan resumes right after it, otherwise it advances one
character. -/
def scanPlaceholders : List Char → List String
  | [] => []
  | c :: cs =>
    match _h : matchPlaceholderAt (c :: cs) with
    | some (nm, tail) => String.mk nm :: scanPlaceholders tail
    | none => scanPlaceholders cs
termination_by s => s.length
decreasing_by
  · exact matchPlaceholderAt_tail_lt _h
  · simp

/-- A merge row: the flat string-to-string object supplied per row,
as an association list; a key that does not occur is `undefined`. -/
abbrev MergeRow : Type := List (String × String)

/-- JS property access `row[key]`: `none` models `undefined`. -/
def rowGet (row : MergeRow) (key : String) : Option String :=
  (List.find? (fun e => e.1 = key) row).map (fun e => e.2)

/-- `typeof replacement === "string" ? replacement : ""` — the replacement
callback's result for a captured name. -/
def rowValueOrEmpty (row : MergeRow) (key : String) : String :=
  match rowGet row key with
  | some v => v
  | none => ""

/-- The scan performed by `String.prototype.replace` with the global regex
(`replacePlaceholders`): each match is replaced by the row's value for the
captured name, or the empty string when the row holds no string there;
unmatched characters are copied verbatim. -/
def replaceChars (row : MergeRow) : List Char → List Char
  | [] => []
  | c :: cs =>
    match _h : matchPlaceholderAt (c :: cs) with
    | some (nm, tail) => (rowValueOrEmpty row (String.mk nm)).data ++ replaceChars row tail
    | none => c :: replaceChars row cs
termination_by s => s.length
decreasing_by
  · exact matchPlaceholderAt_tail_lt _h
  · simp

/-- Proof artifact: the same scan as `scanPlaceholders`, instrumented with
the start index of every match (what the JS match object's `index` is). -/
def scanPos : List Char → Nat → List (Nat × String)
  | [], _ => []
  | c :: cs, k =>
    match _h : matchPlaceholderAt (c :: cs) with
    | some (nm, tail) => (k, String.mk nm) :: scanPos tail (k + nm.length + 4)
    | none => scanPos cs (k + 1)
termination_by s => s.length
decreasing_by
  · exact matchPlaceholderAt_tail_lt _h
  · simp

/-- One piece of the unique decomposition of a text into literal characters
and placeholder occurrences. -/
inductive Chunk : Type
  | lit (c : Char)
  | hole (nm : String)
deriving DecidableEq, Repr

/-- Proof artifact: the decomposition of a text along the global-regex scan:
every match becomes a `hole`, every unmatched character a `lit`. -/
def scanChunks : List Char → List Chunk
  | [] => []
  | c :: cs =>
    match _h : matchPlaceholderAt (c :: cs) with
    | some (nm, tail) => Chunk.hole (String.mk nm) :: scanChunks tail
    | none => Chunk.lit c :: scanChunks cs
termination_by s => s.length
decreasing_by
  · exact matchPlaceholderAt_tail_lt _h
  · simp

/-- Re-print a decomposition: holes as the placeholder markers they came
from, literals as themselves. -/
def flattenChunks : List Chunk → List Char
  | [] => []
  | Chunk.lit c :: rest => c :: flattenChunks rest
  | Chunk.hole nm :: rest => '{' :: '{' :: (nm.data ++ '}' :: '}' :: flattenChunks rest)

/-- Render a decomposition under a row: every hole becomes the row's value
for its name (empty when absent), literals are kept verbatim. -/
def renderChunks (row : MergeRow) : List Chunk → List Char
  | [] => []
  | Chunk.lit c :: rest => c :: renderChunks row rest
  | Chunk.hole nm :: rest => (rowValueOrEmpty row nm).data ++ renderChunks row rest

/-- The names of the holes of a decomposition, in order. -/
def chunkNames : List Chunk → List String
  | [] => []
  | Chunk.lit _ :: rest => chunkNames rest
  | Chunk.hole nm :: rest => nm :: chunkNames rest

theorem scanPlaceholders_nil : scanPlaceholders [] = [] := by
  rw [scanPlaceholders]

theorem scanPlaceholders_cons_match {c : Char} {cs nm tail : List Char}
    (h : matchPlaceholderAt (c :: cs) = some (nm, tail)) :
    scanPlaceholders (c :: cs) = String.mk nm :: scanPlaceholders tail := by
  rw [scanPlaceholders]
  split
  · next nm' tail' h' => rw [h] at h'; cases h'; rfl
  · next h' => rw [h] at h'; cases h'

theorem scanPlaceholders_cons_nomatch {c : Char} {cs : List Char}
    (h : matchPlaceholderAt (c :: cs) = none) :
    scanPlaceholders (c :: cs) = scanPlaceholders cs := by
  rw [scanPlaceholders]
  split
  · next nm' tail' h' => rw [h] at h'; cases h'
  · rfl

theorem replaceChars_nil (row : MergeRow) : replaceChars row [] = [] := by
  rw [replaceChars]

theorem replaceChars_cons_match {row : MergeRow} {c : Char} {cs nm tail : List Char}
    (h : matchPlaceholderAt (c :: cs) = some (nm, tail)) :
    replaceChars row (c :: cs)
      = (rowValueOrEmpty row (String.mk nm)).data ++ replaceChars row tail := by
  rw [replaceChars]
  split
  · next nm' tail' h' => rw [h] at h'; cases h'; rfl
  · next h' => rw [h] at h'; cases h'

theorem replaceChars_cons_nomatch {row : MergeRow} {c : Char} {cs : List Char}
    (h : matchPlaceholderAt (c :: cs) = none) :
    replaceChars row (c :: cs) = c :: replaceChars row cs := by
  rw [replaceChars]
  split
  · next nm' tail' h' => rw [h] at h'; cases h'
  · rfl

theorem scanPos_nil (k : Nat) : scanPos [] k = [] := by
  rw [scanPos]

theorem scanPos_cons_match {c : Char} {cs nm tail : List Char} {k : Nat}
    (h : matchPlaceholderAt (c :: cs) = some (nm, tail)) :
    scanPos (c :: cs) k = (k, String.mk nm) :: scanPos tail (k + nm.length + 4) := by
  rw [scanPos]
  split
  · next nm' tail' h' => rw [h] at h'; cases h'; rfl
  · next h' => rw [h] at h'; cases h'

theorem scanPos_cons_nomatch {c : Char} {cs : List Char} {k : Nat}
    (h : matchPlaceholderAt (c :: cs) = none) :
    scanPos (c :: cs) k = scanPos cs (k + 1) := by
  rw [scanPos]
  split
  · next nm' tail' h' => rw [h] at h'; cases h'
  · rfl

theorem scanChunks_nil : scanChunks [] = [] := by
  rw [scanChunks]

theorem scanChunks_cons_match {c : Char} {cs nm tail : List Char}
    (h : matchPlaceholderAt (c :: cs) = some (nm, tail)) :
    scanChunks (c :: cs) = Chunk.hole (String.mk nm) :: scanChunks tail := by
  rw [scanChunks]
  split
  · next nm' tail' h' => rw [h] at h'; cases h'; rfl
  · next h' => rw [h] at h'; cases h'

theorem scanChunks_cons_nomatch {c : Char} {cs : List Char}
    (h : matchPlaceholderAt (c :: cs) = none) :
    scanChunks (c :: cs) = Chunk.lit c :: scanChunks cs := by
  rw [scanChunks]
  split
  · next nm' tail' h' => rw [h] at h'; cases h'
  · rfl

/-- The extraction scan reports exactly the hole names of the decomposition. -/
theorem scanPlaceholders_eq_chunkNames (s : List Char) :
    scanPlaceholders s = chunkNames (scanChunks s) := by
  induction s using scanChunks.induct with
  | case1 => rw [scanPlaceholders_nil, scanChunks_nil]; rfl
  | case2 c cs nm tail hm ih =>
    rw [scanChunks_cons_match hm, scanPlaceholders_cons_match hm, chunkNames, ih]
  | case3 c cs hm ih =>
    rw [scanChunks_cons_nomatch hm, scanPlaceholders_cons_nomatch hm, chunkNames, ih]

/-- The decomposition loses nothing: re-printing it gives back the text. -/
theorem flattenChunks_scanChunks (s : List Char) :
    flattenChunks (scanChunks s) = s := by
  induction s using scanChunks.induct with
  | case1 => rw [scanChunks_nil]; rfl
  | case2 c cs nm tail hm ih =>
    obtain ⟨hs, -, -⟩ := matchPlaceholderAt_some hm
    rw [scanChunks_cons_match hm, flattenChunks, ih, ← hs]
  | case3 c cs hm ih =>
    rw [scanChunks_cons_nomatch hm, flattenChunks, ih]

/-- Substitution renders the decomposition: every hole becomes the row's
value (empty when absent), every literal character is kept verbatim. -/
theorem replaceChars_eq_renderChunks (row : MergeRow) (s : List Char) :
    replaceChars row s = renderChunks row (scanChunks s) := by
  induction s using scanChunks.induct with
  | case1 => rw [scanChunks_nil, replaceChars_nil]; rfl
  | case2 c cs nm tail hm ih =>
    rw [scanChunks_cons_match hm, replaceChars_cons_match hm, renderChunks, ih]
  | case3 c cs hm ih =>
    rw [scanChunks_cons_nomatch hm, replaceChars_cons_nomatch hm, renderChunks, ih]

/-- The position-instrumented scan reports the same names as the plain one. -/
theorem scanPos_map_snd (s : List Char) (k : Nat) :
    (scanPos s k).map Prod.snd = scanPlaceholders s := by
  induction s using scanChunks.induct generalizing k with
  | case1 => rw [scanPos_nil, scanPlaceholders_nil]; rfl
  | case2 c cs nm tail hm ih =>
    rw [scanPos_cons_match hm, scanPlaceholders_cons_match hm]
    simp [ih]
  | case3 c cs hm ih =>
    rw [scanPos_cons_nomatch hm, scanPlaceholders_cons_nomatch hm]
    exact ih _

/-- Structural (fuel-indexed) twin of `scanPlaceholders`, for closed-term
evaluation; it agrees with it whenever the fuel covers the length. -/
def scanFuel : Nat → List Char → List String
  | 0, _ => []
  | _ + 1, [] => []
  | fuel + 1, c :: cs =>
    match matchPlaceholderAt (c :: cs) with
    | some (nm, tail) => String.mk nm :: scanFuel fuel tail
    | none => scanFuel fuel cs

/-- Structural (fuel-indexed) twin of `replaceChars`. -/
def replaceFuel (row : MergeRow) : Nat → List Char → List Char
  | 0, _ => []
  | _ + 1, [] => []
  | fuel + 1, c :: cs =>
    match matchPlaceholderAt (c :: cs) with
    | some (nm, tail) => (rowValueOrEmpty row (String.mk nm)).data ++ replaceFuel row fuel tail
    | none => c :: replaceFuel row fuel cs

theorem scanFuel_eq {fuel : Nat} {s : List Char} (h : s.length ≤ fuel) :
    scanFuel fuel s = scanPlaceholders s := by
  induction fuel generalizing s with
  | zero =>
    cases s with
    | nil => rw [scanPlaceholders_nil]; rfl
    | cons c cs => simp at h
  | succ fuel ih =>
    cases s with
    | nil => rw [scanPlaceholders_nil]; rfl
    | cons c cs =>
      match hm : matchPlaceholderAt (c :: cs) with
      | some (nm, tail) =>
        have hlt : tail.length < cs.length + 1 := by
          simpa using matchPlaceholderAt_tail_lt hm
        simp only [List.length_cons] at h
        rw [scanPlaceholders_cons_match hm]
        simp only [scanFuel, hm]
        rw [ih (by omega)]
      | none =>
        simp only [List.length_cons] at h
        rw [scanPlaceholders_cons_nomatch hm]
        simp only [scanFuel, hm]
        rw [ih (by omega)]

theorem replaceFuel_eq {row : MergeRow} {fuel : Nat} {s : List Char} (h : s.length ≤ fuel) :
    replaceFuel row fuel s = replaceChars row s := by
  induction fuel generalizing s with
  | zero =>
    cases s with
    | nil => rw [replaceChars_nil]; rfl
    | cons c cs => simp at h
  | succ fuel ih =>
    cases s with
    | nil => rw [replaceChars_nil]; rfl
    | cons c cs =>
      match hm : matchPlaceholderAt (c :: cs) with
      | some (nm, tail) =>
        have hlt : tail.length < cs.length + 1 := by
          simpa using matchPlaceholderAt_tail_lt hm
        simp only [List.length_cons] at h
        rw [replaceChars_cons_match hm]
        simp only [replaceFuel, hm]
        rw [ih (by omega)]
      | none =>
        simp only [List.length_cons] at h
        rw [replaceChars_cons_nomatch hm]
        simp only [replaceFuel, hm]
        rw [ih (by omega)]

/-- Evaluation form of `scanPlaceholders`, usable by kernel reduction. -/
theorem scanPlaceholders_eval (s : List Char) :
    scanPlaceholders s = scanFuel s.length s :=
  (scanFuel_eq le_rfl).symm

/-- Evaluation form of `replaceChars`, usable by kernel reduction. -/
theorem replaceChars_eval (row : MergeRow) (s : List Char) :
    replaceChars row s = replaceFuel row s.length s :=
  (replaceFuel_eq le_rfl).symm

/-- A legal placeholder name per the wire grammar: one or more characters
drawn from `[A-Za-z0-9_]`. -/
def PlainName (nm : List Char) : Prop :=
  nm ≠ [] ∧ ∀ c ∈ nm, isWordChar c

/-- The declarative matching predicate: the substring of `s` starting at
index `i` is the placeholder marker for the legal name `nm`. -/
def MatchesAt (s : List Char) (i : Nat) (nm : String) : Prop :=
  PlainName nm.data ∧
    ∃ p q, p.length = i ∧ s = p ++ '{' :: '{' :: (nm.data ++ '}' :: '}' :: q)

theorem plain_head_ne_brace {m : List Char} (hw : ∀ c ∈ m, isWordChar c)
    {t1 t2 : List Char} (h : m ++ t1 = '{' :: t2) : m = [] := by
  cases m with
  | nil => rfl
  | cons c m' =>
    exfalso
    have hc : isWordChar c := hw c (by simp)
    have : c = '{' := by simpa using congrArg (fun l => l.head?) h
    rw [this] at hc
    simp [isWordChar] at hc

/-- Two placeholder markers starting at the same position coincide. -/
theorem marker_eq_of_append_eq {m n t1 t2 : List Char}
    (hm : ∀ c ∈ m, isWordChar c) (hn : ∀ c ∈ n, isWordChar c)
    (h : m ++ '}' :: '}' :: t1 = n ++ '}' :: '}' :: t2) : m = n ∧ t1 = t2 := by
  induction m generalizing n with
  | nil =>
    cases n with
    | nil => simpa using h
    | cons d n' =>
      exfalso
      have hd : isWordChar d := hn d (by simp)
      have : '}' = d := by simpa using congrArg (fun l => l.head?) h
      rw [← this] at hd
      simp [isWordChar] at hd
  | cons c m' ih =>
    cases n with
    | nil =>
      exfalso
      have hc : isWordChar c := hm c (by simp)
      have : c = '}' := by simpa using congrArg (fun l => l.head?) h
      rw [this] at hc
      simp [isWordChar] at hc
    | cons d n' =>
      simp only [List.cons_append, List.cons.injEq] at h
      obtain ⟨hcd, h'⟩ := h
      obtain ⟨h1, h2⟩ := ih (fun e he => hm e (by simp [he])) (fun e he => hn e (by simp [he])) h'
      exact ⟨by rw [hcd, h1], h2⟩

/-- Core of the no-overlap argument: a second marker occurring inside the
text starting with a marker must lie entirely after that marker. -/
theorem marker_no_overlap_aux {m : List Char} (hm : ∀ c ∈ m, isWordChar c) :
    ∀ (p2 : List Char) {n tail q : List Char},
      m ++ '}' :: '}' :: tail = p2 ++ '{' :: '{' :: (n ++ '}' :: '}' :: q) →
      ∃ p', p2 = m ++ '}' :: '}' :: p' ∧ tail = p' ++ '{' :: '{' :: (n ++ '}' :: '}' :: q) := by
  induction m with
  | nil =>
    intro p2 n tail q h
    match p2 with
    | [] =>
      exfalso
      simpa using congrArg (fun l => l.head?) h
    | [x] =>
      exfalso
      simp only [List.cons_append, List.nil_append, List.cons.injEq] at h
      exact absurd h.2.1 (by decide)
    | x :: y :: p4 =>
      simp only [List.cons_append, List.nil_append, List.cons.injEq] at h
      obtain ⟨hx, hy, h⟩ := h
      exact ⟨p4, by rw [← hx, ← hy]; rfl, h⟩
  | cons c m' ih =>
    intro p2 n tail q h
    match p2 with
    | [] =>
      exfalso
      have hc : isWordChar c := hm c (by simp)
      have : c = '{' := by simpa using congrArg (fun l => l.head?) h
      rw [this] at hc
      simp [isWordChar] at hc
    | x :: p3 =>
      simp only [List.cons_append, List.cons.injEq] at h
      obtain ⟨hx, h'⟩ := h
      obtain ⟨p', hp2, ht⟩ := ih (fun e he => hm e (by simp [he])) p3 h'
      exact ⟨p', by simp [← hx, hp2], ht⟩

/-- No-overlap: when the text begins with a marker for `m`, any marker in it
either is that very one or lies wholly beyond it. -/
theorem marker_no_overlap {m tail p n q : List Char}
    (hmw : ∀ c ∈ m, isWordChar c) (hnw : ∀ c ∈ n, isWordChar c) (_hnn : n ≠ [])
    (h : '{' :: '{' :: (m ++ '}' :: '}' :: tail) = p ++ '{' :: '{' :: (n ++ '}' :: '}' :: q)) :
    (p = [] ∧ m = n ∧ tail = q) ∨
      (∃ p', p = '{' :: '{' :: (m ++ '}' :: '}' :: p') ∧
        tail = p' ++ '{' :: '{' :: (n ++ '}' :: '}' :: q)) := by
  match p with
  | [] =>
    left
    simp only [List.nil_append, List.cons.injEq] at h
    obtain ⟨-, -, h⟩ := h
    obtain ⟨h1, h2⟩ := marker_eq_of_append_eq hmw hnw h
    exact ⟨rfl, h1, h2⟩
  | [a] =>
    exfalso
    have h' : '{' :: (m ++ '}' :: '}' :: tail) = '{' :: '{' :: (n ++ '}' :: '}' :: q) := by
      simpa using congrArg List.tail h
    have h'' : m ++ '}' :: '}' :: tail = '{' :: (n ++ '}' :: '}' :: q) := by
      simpa using congrArg List.tail h'
    have hm0 : m = [] := plain_head_ne_brace hmw h''
    subst hm0
    simp only [List.nil_append, List.cons.injEq] at h''
    exact absurd h''.1 (by decide)
  | a :: b :: p2 =>
    right
    simp only [List.cons_append, List.cons.injEq] at h
    obtain ⟨ha, hb, h⟩ := h
    obtain ⟨p', hp2, ht⟩ := marker_no_overlap_aux hmw p2 h
    exact ⟨p', by simp [← ha, ← hb, hp2], ht⟩

/-- Completeness of the scan: every declarative match is reported, at its
position shifted by the running offset. -/
theorem scanPos_complete {s : List Char} {i : Nat} {nm : String} (k : Nat)
    (h : MatchesAt s i nm) : (k + i, nm) ∈ scanPos s k := by
  induction s using scanChunks.induct generalizing k i with
  | case1 =>
    obtain ⟨-, p, q, -, hs⟩ := h
    exact absurd hs (by simp)
  | case2 c cs m tail hmm ih =>
    obtain ⟨⟨hnn, hnw⟩, p, q, hp, hs⟩ := h
    obtain ⟨hdec, hmn, hmw⟩ := matchPlaceholderAt_some hmm
    rw [scanPos_cons_match hmm]
    rw [hdec] at hs
    rcases marker_no_overlap hmw hnw hnn hs with ⟨hp0, hmeq, -⟩ | ⟨p', hpeq, htail⟩
    · subst hp0
      simp only [List.length_nil] at hp
      subst hp
      have hnm : String.mk m = nm := by rw [hmeq]
      rw [← hnm]
      have hzero : k + 0 = k := by omega
      rw [hzero]
      exact List.mem_cons_self _ _
    · have hmatch : MatchesAt tail p'.length nm := ⟨⟨hnn, hnw⟩, p', q, rfl, htail⟩
      have hmem := ih (k + m.length + 4) hmatch
      have hlen : p.length = m.length + 4 + p'.length := by
        rw [hpeq]; simp; omega
      have heq : k + m.length + 4 + p'.length = k + i := by
        rw [← hp, hlen]; omega
      rw [heq] at hmem
      exact List.mem_cons_of_mem _ hmem
  | case3 c cs hmm ih =>
    obtain ⟨⟨hnn, hnw⟩, p, q, hp, hs⟩ := h
    rw [scanPos_cons_nomatch hmm]
    match p with
    | [] =>
      exfalso
      simp only [List.nil_append] at hs
      have := @matchPlaceholderAt_complete nm.data q hnn hnw
      rw [← hs, hmm] at this
      cases this
    | a :: p1 =>
      have hi : 1 ≤ i := by rw [← hp]; simp
      simp only [List.cons_append, List.cons.injEq] at hs
      obtain ⟨-, hs⟩ := hs
      have hmatch : MatchesAt cs (i - 1) nm := by
        refine ⟨⟨hnn, hnw⟩, p1, q, ?_, hs⟩
        simp only [List.length_cons] at hp
        omega
      have hmem := ih (k + 1) hmatch
      have : k + 1 + (i - 1) = k + i := by omega
      rw [this] at hmem
      exact hmem

/-- Soundness of the scan: every reported pair is a declarative match at or
after the running offset. -/
theorem scanPos_sound {s : List Char} {k i : Nat} {nm : String}
    (h : (i, nm) ∈ scanPos s k) : k ≤ i ∧ MatchesAt s (i - k) nm := by
  induction s using scanChunks.induct generalizing k with
  | case1 => rw [scanPos_nil] at h; cases h
  | case2 c cs m tail hmm ih =>
    rw [scanPos_cons_match hmm] at h
    obtain ⟨hdec, hmn, hmw⟩ := matchPlaceholderAt_some hmm
    rcases List.mem_cons.mp h with hhead | htail
    · have h1 : i = k := congrArg Prod.fst hhead
      have h2 : nm = String.mk m := congrArg Prod.snd hhead
      subst h1; subst h2
      refine ⟨le_rfl, ⟨hmn, hmw⟩, [], tail, by simp, ?_⟩
      simp only [List.nil_append]
      exact hdec
    · obtain ⟨hk, hmatch⟩ := ih htail
      obtain ⟨hplain, p, q, hp, hs⟩ := hmatch
      refine ⟨by omega, hplain, '{' :: '{' :: (m ++ '}' :: '}' :: p), q, ?_, ?_⟩
      · simp only [List.length_cons, List.length_append]
        omega
      · rw [hdec, hs]
        simp
  | case3 c cs hmm ih =>
    rw [scanPos_cons_nomatch hmm] at h
    obtain ⟨hk, hmatch⟩ := ih h
    obtain ⟨hplain, p, q, hp, hs⟩ := hmatch
    refine ⟨by omega, hplain, c :: p, q, ?_, ?_⟩
    · simp only [List.length_cons]; omega
    · simp [hs]

/-- Every reported match position is at or after the running offset. -/
theorem scanPos_pos_le {s : List Char} {k i : Nat} {nm : String}
    (h : (i, nm) ∈ scanPos s k) : k ≤ i :=
  (scanPos_sound h).1

/-- The reported matches are in strictly increasing position order. -/
theorem scanPos_pairwise (s : List Char) (k : Nat) :
    List.Pairwise (fun a b : Nat × String => a.1 < b.1) (scanPos s k) := by
  induction s using scanChunks.induct generalizing k with
  | case1 => rw [scanPos_nil]; exact List.Pairwise.nil
  | case2 c cs m tail hmm ih =>
    rw [scanPos_cons_match hmm]
    refine List.pairwise_cons.mpr ⟨?_, ih _⟩
    intro b hb
    have := scanPos_pos_le hb
    simp only
    omega
  | case3 c cs hmm ih =>
    rw [scanPos_cons_nomatch hmm]
    exact ih _

/-! ## Data model (schemas of `index.ts`) -/

/-- `type: { enum: ["TEXT", "QR", "IMAGE"] }` of the canvas-item schema. -/
inductive ItemType : Type
  | TEXT
  | QR
  | IMAGE
deriving DecidableEq, Repr

/-- One positioned element of a template (`CanvasItemPayload`). -/
structure CanvasItem : Type where
  id : String
  type : ItemType
  content : String
  x : Int
  y : Int
  width : Int
  height : Int
  fontSize : Option Int
  fontFamily : Option String
  fontWeight : Option String
  fontStyle : Option String
  textDecoration : Option String
  color : Option String
  textAlign : Option String
deriving DecidableEq, Repr

/-- A named placeholder discovered in a template (`TemplateFieldPayload`). -/
structure TemplateField : Type where
  name : String
  label : String
  targetItemId : String
deriving DecidableEq, Repr

/-- `role: { enum: ["draft", "filled"] }` of the template schema. -/
inductive Role : Type
  | draft
  | filled
deriving DecidableEq, Repr

/-- A stored template; `id` is the document id assigned by the store. -/
structure Template : Type where
  id : String
  name : String
  folderId : Option String
  width : Int
  height : Int
  items : List CanvasItem
  fields : List TemplateField
  role : Role
deriving DecidableEq, Repr

/-- The attribute set handed to `TemplateModel.create` for one merge output
(the persisted document before the store assigns an id). -/
structure NewTemplate : Type where
  name : String
  folderId : Option String
  width : Int
  height : Int
  items : List CanvasItem
  fields : List TemplateField
  role : Role
deriving DecidableEq, Repr

/-! ## Source operations -/

/-- `extractFieldsFromItems`: walk the items in order; scan only TEXT items
with non-empty content; the insertion-ordered `Map` keyed by name is modelled
by an append-only list guarded by a name-membership test. -/
def extractFieldsFromItems (items : List CanvasItem) : List TemplateField :=
  items.foldl
    (fun acc item =>
      if item.type = ItemType.TEXT ∧ item.content ≠ "" then
        (scanPlaceholders item.content.data).foldl
          (fun acc2 nm =>
            if acc2.any (fun f => f.name = nm) then acc2
            else acc2 ++ [{ name := nm, label := nm, targetItemId := item.id }])
          acc
      else acc)
    []

/-- `replacePlaceholders`: `value.replace(placeholderRegex, cb)` with the
guard `if (!value) return value`. -/
def replacePlaceholders (value : String) (row : MergeRow) : String :=
  if value = "" then value
  else String.mk (replaceChars row value.data)

/-- `cloneItemsWithData`: map over the items, rewriting only TEXT content. -/
def cloneItemsWithData (items : List CanvasItem) (row : MergeRow) : List CanvasItem :=
  items.map (fun item =>
    if item.type ≠ ItemType.TEXT then item
    else { item with content := replacePlaceholders item.content row })

/-- JS truthiness chain `a || b` on string-or-undefined values: an absent
value and the empty string both fall through. -/
def orFalsy (a b : Option String) : Option String :=
  match a with
  | some s => if s = "" then b else some s
  | none => b

/-- The request body of `POST /api/merge`; `none` models an absent field
(and `rows = none` also a non-array one). -/
structure MergeRequest : Type where
  templateId : Option String
  folderId : Option String
  rows : Option (List MergeRow)

/-- The two early failures of the merge handler: HTTP 400 (`Thiếu dữ liệu
merge`) and HTTP 404 (`Không tìm thấy phôi`). -/
inductive MergeError : Type
  | validationFailure
  | notFound
deriving DecidableEq, Repr

/-- The per-row loop of the merge handler: for each row, in order, pick the
target folder, clone-substitute the items, derive the output name, and
create one `filled` template.  The returned list is both the persisted
creations (in creation order) and the response payload. -/
def mergeRows (template : Template) (reqFolderId : Option String)
    (effectiveFields : List TemplateField) : List MergeRow → Nat → List NewTemplate
  | [], _ => []
  | row :: rest, index =>
    let targetFolderId :=
      match reqFolderId with
      | some f => some f
      | none => template.folderId
    let clonedItems := cloneItemsWithData template.items row
    let preferredNameField :=
      orFalsy (rowGet row "__name")
        (orFalsy (rowGet row "name")
          (match effectiveFields.head? with
           | some f0 => if f0.name = "" then none else rowGet row f0.name
           | none => none))
    let generatedName :=
      match preferredNameField with
      | some s =>
        if s.trim.length ≠ 0 then s.trim
        else template.name ++ " #" ++ toString (index + 1)
      | none => template.name ++ " #" ++ toString (index + 1)
    { name := generatedName
      folderId := targetFolderId
      width := template.width
      height := template.height
      items := clonedItems
      fields := effectiveFields
      role := Role.filled } :: mergeRows template reqFolderId effectiveFields rest (index + 1)

/-- The `POST /api/merge` handler: guard the request shape, resolve the
template, compute the effective field set once, then run the per-row loop. -/
def mergeHandler (store : List Template) (req : MergeRequest) :
    Except MergeError (List NewTemplate) :=
  match req.templateId, req.rows with
  | none, _ => Except.error MergeError.validationFailure
  | some _, none => Except.error MergeError.validationFailure
  | some tid, some rows =>
    if tid = "" ∨ rows = [] then Except.error MergeError.validationFailure
    else
      match store.find? (fun t => t.id = tid) with
      | none => Except.error MergeError.notFound
      | some template =>
        let effectiveFields :=
          if template.fields ≠ [] then template.fields
          else extractFieldsFromItems template.items
        Except.ok (mergeRows template req.folderId effectiveFields rows 0)

/-- The sequence of template documents the merge request persists: none on
an early failure, one per row otherwise. -/
def mergeCreatedTemplates (store : List Template) (req : MergeRequest) : List NewTemplate :=
  match mergeHandler store req with
  | Except.ok created => created
  | Except.error _ => []

/-! ## Field extraction: declarative first-occurrence view -/

/-- The full stream of `(placeholder name, item id)` occurrences of an item
list: items in list order, names left-to-right within each scanned item;
only TEXT items with non-empty content contribute. -/
def fieldOccurrences (items : List CanvasItem) : List (String × String) :=
  items.flatMap (fun item =>
    if item.type = ItemType.TEXT ∧ item.content ≠ "" then
      (scanPlaceholders item.content.data).map (fun nm => (nm, item.id))
    else [])

/-- Keep only the first occurrence of every name (relative to the names
already `seen`), preserving order. -/
def dedupKeepFirst (seen : List String) : List (String × String) → List (String × String)
  | [] => []
  | e :: rest =>
    if e.1 ∈ seen then dedupKeepFirst seen rest
    else e :: dedupKeepFirst (e.1 :: seen) rest

theorem dedupKeepFirst_congr {seen seen' : List String}
    (h : ∀ x, x ∈ seen ↔ x ∈ seen') (l : List (String × String)) :
    dedupKeepFirst seen l = dedupKeepFirst seen' l := by
  induction l generalizing seen seen' with
  | nil => rfl
  | cons e rest ih =>
    simp only [dedupKeepFirst]
    by_cases he : e.1 ∈ seen
    · rw [if_pos he, if_pos ((h e.1).mp he)]
      exact ih h
    · rw [if_neg he, if_neg (fun hx => he ((h e.1).mpr hx))]
      refine congrArg _ (ih ?_)
      intro x
      simp [h x]

theorem dedupKeepFirst_append (a b : List (String × String)) (seen : List String) :
    dedupKeepFirst seen (a ++ b)
      = dedupKeepFirst seen a
        ++ dedupKeepFirst ((dedupKeepFirst seen a).map Prod.fst ++ seen) b := by
  induction a generalizing seen with
  | nil => simp [dedupKeepFirst]
  | cons e a' ih =>
    simp only [List.cons_append, dedupKeepFirst]
    by_cases he : e.1 ∈ seen
    · rw [if_pos he, if_pos he]
      simp only [List.append_eq]
      rw [ih]
    · rw [if_neg he, if_neg he]
      simp only [List.cons_append, List.map_cons, List.append_eq]
      rw [ih]
      refine congrArg _ (congrArg _ (dedupKeepFirst_congr ?_ b))
      intro x
      simp only [List.mem_append, List.mem_cons]
      tauto

/-- The per-item inner loop of `extractFieldsFromItems` appends exactly the
first occurrences of the names not seen in the accumulator. -/
theorem extract_inner_loop (names : List String) (itemId : String)
    (acc : List TemplateField) :
    names.foldl
      (fun acc2 nm =>
        if acc2.any (fun f => f.name = nm) then acc2
        else acc2 ++ [{ name := nm, label := nm, targetItemId := itemId }])
      acc
    = acc ++ (dedupKeepFirst (acc.map TemplateField.name)
        (names.map (fun nm => (nm, itemId)))).map
          (fun e => { name := e.1, label := e.1, targetItemId := e.2 }) := by
  induction names generalizing acc with
  | nil => simp [dedupKeepFirst]
  | cons nm names' ih =>
    simp only [List.foldl_cons, List.map_cons, dedupKeepFirst]
    by_cases hmem : nm ∈ acc.map TemplateField.name
    · have hany : acc.any (fun f => f.name = nm) = true := by
        simp only [List.any_eq_true]
        obtain ⟨f, hf, hfn⟩ := List.mem_map.mp hmem
        exact ⟨f, hf, by simp [hfn]⟩
      rw [if_pos hany, if_pos hmem]
      exact ih acc
    · have hany : ¬ acc.any (fun f => f.name = nm) = true := by
        simp only [List.any_eq_true]
        rintro ⟨f, hf, hfn⟩
        exact hmem (List.mem_map.mpr ⟨f, hf, by simpa using hfn⟩)
      rw [if_neg hany, if_neg hmem, ih]
      simp only [List.map_append, List.map_cons, List.map_nil]
      rw [List.append_assoc]
      refine congrArg _ ?_
      simp only [List.cons_append, List.nil_append, List.map_cons]
      refine congrArg _ (congrArg _ (dedupKeepFirst_congr ?_ _))
      intro x
      simp only [List.mem_append, List.mem_cons, List.mem_singleton]
      tauto

theorem map_name_of_map_toField (l : List (String × String)) :
    (l.map (fun e => ({ name := e.1, label := e.1, targetItemId := e.2 } : TemplateField))).map
        TemplateField.name
      = l.map Prod.fst := by
  induction l with
  | nil => rfl
  | cons e rest ih => simp [ih]

/-- The extraction loop, started from any accumulator, appends exactly the
not-yet-seen first occurrences of the remaining items. -/
theorem extract_loop (items : List CanvasItem) (acc : List TemplateField) :
    items.foldl
      (fun acc item =>
        if item.type = ItemType.TEXT ∧ item.content ≠ "" then
          (scanPlaceholders item.content.data).foldl
            (fun acc2 nm =>
              if acc2.any (fun f => f.name = nm) then acc2
              else acc2 ++ [{ name := nm, label := nm, targetItemId := item.id }])
            acc
        else acc)
      acc
    = acc ++ (dedupKeepFirst (acc.map TemplateField.name)
        (fieldOccurrences items)).map
          (fun e => { name := e.1, label := e.1, targetItemId := e.2 }) := by
  induction items generalizing acc with
  | nil => simp [fieldOccurrences, dedupKeepFirst]
  | cons item rest ih =>
    simp only [List.foldl_cons, fieldOccurrences, List.flatMap_cons]
    by_cases hscan : item.type = ItemType.TEXT ∧ item.content ≠ ""
    · rw [if_pos hscan, if_pos hscan, extract_inner_loop, ih]
      rw [dedupKeepFirst_append]
      simp only [List.map_append, map_name_of_map_toField]
      rw [List.append_assoc]
      refine congrArg _ (congrArg _ ?_)
      refine congrArg _ (dedupKeepFirst_congr ?_ _)
      intro x
      simp only [List.mem_append]
      tauto
    · rw [if_neg hscan, if_neg hscan, ih]
      simp [fieldOccurrences]

/-! ## Folder store and descendant closure -/

/-- A stored folder document. -/
structure Folder : Type where
  id : String
  parentId : Option String
deriving DecidableEq, Repr

/-- `FolderModel.find({ parentId: current })` projected to ids, in store
order. -/
def childIds (store : List Folder) (p : String) : List String :=
  (store.filter (fun f => f.parentId = some p)).map (fun f => f.id)

/-- One state of `findDescendantFolderIds`: the accumulated `ids` array and
the work `queue`. -/
def bfsRun (store : List Folder) : Nat → List String × List String → List String × List String
  | 0, st => st
  | _ + 1, (ids, []) => (ids, [])
  | fuel + 1, (ids, current :: rest) =>
    bfsRun store fuel (ids ++ childIds store current, rest ++ childIds store current)

/-- `findDescendantFolderIds`: run the while-loop from `ids = queue = [rootId]`.
The loop of the source has no bound; the `fuel` argument only majorises the
number of iterations, and the termination theorems show a sufficient fuel
after which the result is stable. -/
def findDescendantFolderIds (store : List Folder) (rootId : String) (fuel : Nat) : List String :=
  (bfsRun store fuel ([rootId], [rootId])).1

/-- Declarative reachability over the is-parent-of relation, from the root,
including the root itself. -/
inductive Reachable (store : List Folder) (root : String) : String → Prop
  | refl : Reachable store root root
  | step {p c : String} : Reachable store root p → c ∈ childIds store p → Reachable store root c

/-- One is-parent-of step between folder ids. -/
def StepsTo (store : List Folder) (p c : String) : Prop :=
  c ∈ childIds store p

/-- The parent relation has no cycle (a data-model invariant of the folder
tree; the source performs no cycle detection). -/
def Acyclic (store : List Folder) : Prop :=
  ∀ x, ¬ Relation.TransGen (StepsTo store) x x

/-- The breadth-first levels below the root: level 0 is the root, level
`n + 1` holds the children of level `n` in traversal order. -/
def levels (store : List Folder) (root : String) : Nat → List String
  | 0 => [root]
  | n + 1 => (levels store root n).flatMap (childIds store)

/-- The concatenation of the first `k` levels, in level order. -/
def levelConcat (store : List Folder) (root : String) (k : Nat) : List String :=
  (List.range k).flatMap (levels store root)

/-- Fuel needed to process the first `k` levels. -/
def cumLevelFuel (store : List Folder) (root : String) (k : Nat) : Nat :=
  ((List.range k).map (fun d => (levels store root d).length)).sum

theorem levelConcat_succ (store : List Folder) (root : String) (k : Nat) :
    levelConcat store root (k + 1) = levelConcat store root k ++ levels store root k := by
  simp [levelConcat, List.range_succ]

theorem bfsRun_empty_queue (store : List Folder) (fuel : Nat) (ids : List String) :
    bfsRun store fuel (ids, []) = (ids, []) := by
  cases fuel <;> rfl

/-- Processing a block `q` at the head of the queue consumes `q.length` fuel
and appends the children of `q` to both the ids and the queue. -/
theorem bfsRun_block (store : List Folder) (q : List String) :
    ∀ (fuel : Nat) (ids rest : List String),
      bfsRun store (q.length + fuel) (ids, q ++ rest)
        = bfsRun store fuel
            (ids ++ q.flatMap (childIds store), rest ++ q.flatMap (childIds store)) := by
  induction q with
  | nil => intro fuel ids rest; simp
  | cons a q' ih =>
    intro fuel ids rest
    have hstep :
        bfsRun store (q'.length + fuel + 1) (ids, a :: (q' ++ rest))
          = bfsRun store (q'.length + fuel)
              (ids ++ childIds store a, (q' ++ rest) ++ childIds store a) := rfl
    have hfuel : (a :: q').length + fuel = q'.length + fuel + 1 := by simp; omega
    rw [hfuel]
    simp only [List.cons_append]
    rw [hstep, List.append_assoc]
    rw [ih fuel (ids ++ childIds store a) (rest ++ childIds store a)]
    simp [List.append_assoc]

/-- After enough fuel for the first `k` levels, the run has emitted exactly
levels `0..k` and the queue holds level `k`. -/
theorem bfsRun_levels (store : List Folder) (root : String) :
    ∀ (k fuel : Nat),
      bfsRun store (cumLevelFuel store root k + fuel) ([root], [root])
        = bfsRun store fuel (levelConcat store root (k + 1), levels store root k) := by
  intro k
  induction k with
  | zero =>
    intro fuel
    simp [cumLevelFuel, levelConcat, levels, List.range_succ]
  | succ k ih =>
    intro fuel
    have hcum : cumLevelFuel store root (k + 1) + fuel
        = cumLevelFuel store root k + ((levels store root k).length + fuel) := by
      simp [cumLevelFuel, List.range_succ]
      omega
    rw [hcum, ih ((levels store root k).length + fuel)]
    have hblock := bfsRun_block store (levels store root k) fuel
      (levelConcat store root (k + 1)) []
    rw [List.append_nil] at hblock
    rw [hblock]
    rw [List.nil_append]
    rw [← levels, ← levelConcat_succ]

/-- Once some level is empty, the queue stays empty and the emitted ids are
the concatenation of the levels before it. -/
theorem bfsRun_stable (store : List Folder) (root : String) {k : Nat}
    (hk : levels store root k = []) :
    ∀ fuel, cumLevelFuel store root k ≤ fuel →
      bfsRun store fuel ([root], [root]) = (levelConcat store root k, []) := by
  intro fuel hfuel
  obtain ⟨f, rfl⟩ : ∃ f, fuel = cumLevelFuel store root k + f :=
    ⟨fuel - cumLevelFuel store root k, by omega⟩
  rw [bfsRun_levels store root k f, hk, bfsRun_empty_queue]
  rw [levelConcat_succ, hk, List.append_nil]

theorem mem_levels_reachable {store : List Folder} {root : String} {n : Nat} {x : String}
    (h : x ∈ levels store root n) : Reachable store root x := by
  induction n generalizing x with
  | zero =>
    simp only [levels, List.mem_singleton] at h
    rw [h]
    exact Reachable.refl
  | succ n ih =>
    simp only [levels, List.mem_flatMap] at h
    obtain ⟨p, hp, hx⟩ := h
    exact Reachable.step (ih hp) hx

theorem reachable_mem_levels {store : List Folder} {root : String} {x : String}
    (h : Reachable store root x) : ∃ n, x ∈ levels store root n := by
  induction h with
  | refl => exact ⟨0, by simp [levels]⟩
  | step hp hc ih =>
    obtain ⟨n, hn⟩ := ih
    exact ⟨n + 1, by simp only [levels, List.mem_flatMap]; exact ⟨_, hn, hc⟩⟩

theorem reachable_reflTransGen {store : List Folder} {root x : String}
    (h : Reachable store root x) : Relation.ReflTransGen (StepsTo store) root x := by
  induction h with
  | refl => exact Relation.ReflTransGen.refl
  | step hp hc ih => exact Relation.ReflTransGen.tail ih hc

theorem mem_childIds {store : List Folder} {p c : String} :
    c ∈ childIds store p ↔ ∃ f ∈ store, f.parentId = some p ∧ f.id = c := by
  simp only [childIds, List.mem_map, List.mem_filter, decide_eq_true_eq]
  constructor
  · rintro ⟨f, ⟨hf, hpar⟩, rfl⟩
    exact ⟨f, hf, hpar, rfl⟩
  · rintro ⟨f, hf, hpar, rfl⟩
    exact ⟨f, ⟨hf, hpar⟩, rfl⟩

/-- With unique folder ids, a folder id has at most one parent. -/
theorem parent_unique {store : List Folder} (hN : (store.map Folder.id).Nodup)
    {p p' c : String} (h : c ∈ childIds store p) (h' : c ∈ childIds store p') : p = p' := by
  obtain ⟨f, hf, hfp, hfc⟩ := mem_childIds.mp h
  obtain ⟨g, hg, hgp, hgc⟩ := mem_childIds.mp h'
  have : f = g := List.inj_on_of_nodup_map hN hf hg (by rw [hfc, hgc])
  subst this
  rw [hfp] at hgp
  exact Option.some_injective _ hgp

theorem childIds_nodup {store : List Folder} (hN : (store.map Folder.id).Nodup)
    (p : String) : (childIds store p).Nodup := by
  have hsub : List.Sublist
      ((store.filter (fun f => f.parentId = some p)).map Folder.id)
      (store.map Folder.id) :=
    List.Sublist.map Folder.id (List.filter_sublist store)
  exact hN.sublist hsub

/-- With unique ids and an acyclic parent relation, an id occurs in at most
one level. -/
theorem levels_disjoint {store : List Folder} {root : String}
    (hN : (store.map Folder.id).Nodup) (hA : Acyclic store) :
    ∀ (n m : Nat), n < m → ∀ x, x ∈ levels store root n → x ∈ levels store root m → False := by
  intro n
  induction n with
  | zero =>
    intro m hm x h0 hmm
    simp only [levels, List.mem_singleton] at h0
    subst h0
    obtain ⟨l, rfl⟩ : ∃ l, m = l + 1 := ⟨m - 1, by omega⟩
    simp only [levels, List.mem_flatMap] at hmm
    obtain ⟨p, hp, hc⟩ := hmm
    have hreach : Relation.ReflTransGen (StepsTo store) x p :=
      reachable_reflTransGen (mem_levels_reachable hp)
    exact hA x (Relation.TransGen.tail' hreach hc)
  | succ k ih =>
    intro m hm x hk hmm
    obtain ⟨l, rfl⟩ : ∃ l, m = l + 1 := ⟨m - 1, by omega⟩
    simp only [levels, List.mem_flatMap] at hk hmm
    obtain ⟨p, hp, hc⟩ := hk
    obtain ⟨p', hp', hc'⟩ := hmm
    have : p = p' := parent_unique hN hc hc'
    subst this
    exact ih l (by omega) p hp hp'

/-- With unique ids, every level is nodup. -/
theorem levels_nodup {store : List Folder} {root : String}
    (hN : (store.map Folder.id).Nodup) :
    ∀ n, (levels store root n).Nodup := by
  intro n
  induction n with
  | zero => simp [levels]
  | succ n ih =>
    simp only [levels]
    rw [List.nodup_flatMap]
    refine ⟨fun p _ => childIds_nodup hN p, ?_⟩
    refine List.Pairwise.imp_of_mem ?_ ih
    intro p p' hp hp' hne
    intro x hx hx'
    exact absurd (parent_unique hN hx hx') hne

theorem levelConcat_nodup {store : List Folder} {root : String}
    (hN : (store.map Folder.id).Nodup) (hA : Acyclic store) (k : Nat) :
    (levelConcat store root k).Nodup := by
  rw [levelConcat, List.nodup_flatMap]
  refine ⟨fun d _ => levels_nodup hN d, ?_⟩
  refine List.Pairwise.imp ?_ (List.pairwise_lt_range k)
  intro d d' hdd'
  intro x hx hx'
  exact levels_disjoint hN hA d d' hdd' x hx hx'

theorem levelConcat_length (store : List Folder) (root : String) (k : Nat) :
    (levelConcat store root k).length = cumLevelFuel store root k := by
  simp only [levelConcat, cumLevelFuel, List.length_flatMap]
  congr 1

theorem levelConcat_subset {store : List Folder} {root : String} {k : Nat} :
    ∀ x ∈ levelConcat store root k, x ∈ root :: store.map Folder.id := by
  intro x hx
  rw [levelConcat, List.mem_flatMap] at hx
  obtain ⟨d, -, hx⟩ := hx
  match d with
  | 0 =>
    simp only [levels, List.mem_singleton] at hx
    simp [hx]
  | d + 1 =>
    simp only [levels, List.mem_flatMap] at hx
    obtain ⟨p, -, hx⟩ := hx
    obtain ⟨f, hf, -, rfl⟩ := mem_childIds.mp hx
    simp only [List.mem_cons, List.mem_map]
    exact Or.inr ⟨f, hf, rfl⟩

theorem nodup_subset_length_le {l l' : List String} (hn : l.Nodup) (hsub : ∀ x ∈ l, x ∈ l') :
    l.length ≤ l'.length := by
  have h1 : l.toFinset.card = l.length := List.toFinset_card_of_nodup hn
  have h2 : l.toFinset ⊆ l'.toFinset := by
    intro x hx
    rw [List.mem_toFinset] at hx ⊢
    exact hsub x hx
  calc l.length = l.toFinset.card := h1.symm
    _ ≤ l'.toFinset.card := Finset.card_le_card h2
    _ ≤ l'.length := List.toFinset_card_le _

theorem cumLevelFuel_le {store : List Folder} (root : String)
    (hN : (store.map Folder.id).Nodup) (hA : Acyclic store) (k : Nat) :
    cumLevelFuel store root k ≤ store.length + 1 := by
  have := nodup_subset_length_le (levelConcat_nodup hN hA k)
    (@levelConcat_subset store root k)
  rw [levelConcat_length] at this
  simpa using this

theorem cumLevelFuel_ge {store : List Folder} {root : String} {k : Nat}
    (h : ∀ d, d < k → levels store root d ≠ []) :
    k ≤ cumLevelFuel store root k := by
  induction k with
  | zero => simp [cumLevelFuel]
  | succ k ih =>
    have hk : cumLevelFuel store root (k + 1)
        = cumLevelFuel store root k + (levels store root k).length := by
      simp [cumLevelFuel, List.range_succ]
    have h1 : 1 ≤ (levels store root k).length :=
      List.length_pos.mpr (h k (by omega))
    have h2 := ih (fun d hd => h d (by omega))
    omega

/-- On a finite store with unique ids and an acyclic parent relation, some
breadth-first level is empty. -/
theorem exists_empty_level {store : List Folder} {root : String}
    (hN : (store.map Folder.id).Nodup) (hA : Acyclic store) :
    ∃ k, levels store root k = [] := by
  by_contra hall
  push_neg at hall
  have hge : store.length + 2 ≤ cumLevelFuel store root (store.length + 2) :=
    cumLevelFuel_ge (fun d _ => hall d)
  have hle := cumLevelFuel_le root hN hA (store.length + 2)
  omega

theorem levels_empty_succ {store : List Folder} {root : String} {k : Nat}
    (h : levels store root k = []) : levels store root (k + 1) = [] := by
  simp [levels, h]

theorem levels_empty_of_le {store : List Folder} {root : String} {k m : Nat}
    (h : levels store root k = []) (hm : k ≤ m) : levels store root m = [] := by
  induction m with
  | zero =>
    have : k = 0 := by omega
    rw [← this]; exact h
  | succ m ih =>
    by_cases hkm : k ≤ m
    · exact levels_empty_succ (ih hkm)
    · have : k = m + 1 := by omega
      rw [← this]; exact h

theorem levelConcat_head {store : List Folder} {root : String} {k : Nat} (h : 1 ≤ k) :
    ∃ t, levelConcat store root k = root :: t := by
  induction k with
  | zero => omega
  | succ k ih =>
    by_cases hk : 1 ≤ k
    · obtain ⟨t, ht⟩ := ih hk
      rw [levelConcat_succ, ht]
      exact ⟨t ++ levels store root k, rfl⟩
    · have : k = 0 := by omega
      subst this
      rw [levelConcat_succ]
      exact ⟨[], by simp [levelConcat, levels]⟩

theorem mem_levelConcat {store : List Folder} {root : String} {k : Nat} {x : String} :
    x ∈ levelConcat store root k ↔ ∃ d, d < k ∧ x ∈ levels store root d := by
  rw [levelConcat, List.mem_flatMap]
  constructor
  · rintro ⟨d, hd, hx⟩
    exact ⟨d, List.mem_range.mp hd, hx⟩
  · rintro ⟨d, hd, hx⟩
    exact ⟨d, List.mem_range.mpr hd, hx⟩

/-! ## Further supporting lemmas -/

/-- A string is empty exactly when its length is zero. -/
theorem string_length_zero_iff {t : String} : t.length = 0 ↔ t = "" := by
  constructor
  · intro h
    cases t with
    | mk d =>
      have hd : d = [] := List.length_eq_zero.mp h
      rw [hd]
  · intro h
    subst h
    rfl

/-- Substitution consults the row only at the names the scan reports. -/
theorem replaceChars_congr {row row' : MergeRow} {s : List Char}
    (h : ∀ nm ∈ scanPlaceholders s, rowGet row nm = rowGet row' nm) :
    replaceChars row s = replaceChars row' s := by
  induction s using scanChunks.induct with
  | case1 => rw [replaceChars_nil, replaceChars_nil]
  | case2 c cs nm tail hm ih =>
    rw [replaceChars_cons_match hm, replaceChars_cons_match hm]
    rw [scanPlaceholders_cons_match hm] at h
    have hval : rowValueOrEmpty row (String.mk nm) = rowValueOrEmpty row' (String.mk nm) := by
      rw [rowValueOrEmpty, rowValueOrEmpty, h (String.mk nm) (by simp)]
    rw [hval, ih (fun x hx => h x (by simp [hx]))]
  | case3 c cs hm ih =>
    rw [replaceChars_cons_nomatch hm, replaceChars_cons_nomatch hm]
    rw [scanPlaceholders_cons_nomatch hm] at h
    rw [ih h]

/-- When the scan reports nothing, substitution is the identity. -/
theorem replaceChars_id_of_no_match {row : MergeRow} {s : List Char}
    (h : scanPlaceholders s = []) : replaceChars row s = s := by
  induction s using scanChunks.induct with
  | case1 => rw [replaceChars_nil]
  | case2 c cs nm tail hm ih =>
    rw [scanPlaceholders_cons_match hm] at h
    cases h
  | case3 c cs hm ih =>
    rw [scanPlaceholders_cons_nomatch hm] at h
    rw [replaceChars_cons_nomatch hm, ih h]

/-- The per-index behaviour of the merge loop. -/
theorem mergeRows_get (template : Template) (reqFolderId : Option String)
    (eff : List TemplateField) :
    ∀ (rows : List MergeRow) (index i : Nat),
      (mergeRows template reqFolderId eff rows index)[i]?
        = rows[i]?.map (fun row =>
            { name :=
                match
                  orFalsy (rowGet row "__name")
                    (orFalsy (rowGet row "name")
                      (match eff.head? with
                       | some f0 => if f0.name = "" then none else rowGet row f0.name
                       | none => none)) with
                | some s =>
                  if s.trim.length ≠ 0 then s.trim
                  else template.name ++ " #" ++ toString (index + i + 1)
                | none => template.name ++ " #" ++ toString (index + i + 1)
              folderId :=
                match reqFolderId with
                | some f => some f
                | none => template.folderId
              width := template.width
              height := template.height
              items := cloneItemsWithData template.items row
              fields := eff
              role := Role.filled } : MergeRow → NewTemplate) := by
  intro rows
  induction rows with
  | nil => intro index i; simp [mergeRows]
  | cons row rest ih =>
    intro index i
    cases i with
    | zero => simp [mergeRows]
    | succ i =>
      simp only [mergeRows, List.getElem?_cons_succ]
      rw [ih (index + 1) i]
      have harith : index + 1 + i = index + (i + 1) := by omega
      simp only [harith]

theorem mergeRows_length (template : Template) (reqFolderId : Option String)
    (eff : List TemplateField) :
    ∀ (rows : List MergeRow) (index : Nat),
      (mergeRows template reqFolderId eff rows index).length = rows.length := by
  intro rows
  induction rows with
  | nil => intro index; rfl
  | cons row rest ih => intro index; simp [mergeRows, ih]

/-! ## Claim theorems -/

/-- C3: field extraction returns one `TemplateField` per distinct placeholder
name, in order of first occurrence over the occurrence stream (items in list
order, placeholders left-to-right; only TEXT items with non-empty content
contribute, so QR/IMAGE content is ignored), with `targetItemId` the id of
the first item in which the name appeared and `label` equal to the name;
later reoccurrences produce no duplicate, and an empty or placeholder-free
item list yields the empty field list. -/
theorem merge_C3_field_extraction (items : List CanvasItem) :
    extractFieldsFromItems items
      = (dedupKeepFirst [] (fieldOccurrences items)).map
          (fun e => { name := e.1, label := e.1, targetItemId := e.2 }) := by
  have h := extract_loop items []
  simpa [extractFieldsFromItems] using h

/-- C4: the placeholders recognized are exactly the substrings
`{{` ++ name ++ `}}` with `name` a non-empty run of `[A-Za-z0-9_]`
characters, reported with strictly increasing positions (left-to-right
order); the extraction scan reports exactly their names, and every reported
name is legal, so malformed markers (empty name, unterminated braces,
punctuation or spaces in the name) are never matched. -/
theorem merge_C4_placeholder_grammar (s : List Char) :
    (∀ i nm, (i, nm) ∈ scanPos s 0 ↔ MatchesAt s i nm)
    ∧ List.Pairwise (fun a b : Nat × String => a.1 < b.1) (scanPos s 0)
    ∧ (scanPos s 0).map Prod.snd = scanPlaceholders s
    ∧ ∀ nm ∈ scanPlaceholders s, PlainName nm.data := by
  refine ⟨?_, scanPos_pairwise s 0, scanPos_map_snd s 0, ?_⟩
  · intro i nm
    constructor
    · intro h
      have := (scanPos_sound h).2
      simpa using this
    · intro h
      have := scanPos_complete 0 h
      simpa using this
  · intro nm hnm
    rw [← scanPos_map_snd s 0] at hnm
    obtain ⟨⟨i, nm'⟩, hmem, rfl⟩ := List.mem_map.mp hnm
    exact (scanPos_sound hmem).2.1

/-- The character-level view of `replacePlaceholders`. -/
theorem replacePlaceholders_data (t : String) (row : MergeRow) :
    (replacePlaceholders t row).data = replaceChars row t.data := by
  rw [replacePlaceholders]
  by_cases hs : t = ""
  · subst hs
    rw [if_pos rfl]
    rw [show ("" : String).data = ([] : List Char) from rfl, replaceChars_nil]
  · rw [if_neg hs]

/-- C5: row substitution preserves the length and order of the item list;
each item is either returned unchanged (non-TEXT) or returned with only its
content rewritten; the content decomposes into literal characters and
placeholder occurrences (`flattenChunks` is a left inverse of the scan),
substitution renders exactly that decomposition — every occurrence becomes
the row's value for its name or the empty string when the row has none, and
literal characters are kept verbatim — and placeholder-free content is
returned unchanged. -/
theorem merge_C5_row_substitution (items : List CanvasItem) (row : MergeRow) :
    (cloneItemsWithData items row).length = items.length
    ∧ (∀ i : Nat, (cloneItemsWithData items row)[i]?
        = items[i]?.map (fun item =>
            if item.type = ItemType.TEXT then
              { item with content := replacePlaceholders item.content row }
            else item))
    ∧ (∀ s : String, flattenChunks (scanChunks s.data) = s.data)
    ∧ (∀ s : String, (replacePlaceholders s row).data = renderChunks row (scanChunks s.data))
    ∧ (∀ s : String, scanPlaceholders s.data = [] → replacePlaceholders s row = s) := by
  refine ⟨by simp [cloneItemsWithData], ?_, ?_, ?_, ?_⟩
  · intro i
    simp only [cloneItemsWithData, List.getElem?_map]
    cases items[i]? with
    | none => rfl
    | some item =>
      simp only [Option.map_some']
      by_cases htype : item.type = ItemType.TEXT
      · rw [if_pos htype, if_neg (by simp [htype])]
      · rw [if_neg htype, if_pos htype]
  · intro s
    exact flattenChunks_scanChunks s.data
  · intro s
    rw [replacePlaceholders_data, replaceChars_eq_renderChunks]
  · intro s hscan
    have hd : (replacePlaceholders s row).data = s.data := by
      rw [replacePlaceholders_data, replaceChars_id_of_no_match hscan]
    cases hres : replacePlaceholders s row with
    | mk d =>
      rw [hres] at hd
      cases s with
      | mk d' =>
        rw [show (String.mk d).data = d from rfl, show (String.mk d').data = d' from rfl] at hd
        rw [hd]

/-- All placeholder names occurring in the TEXT items of a list (every TEXT
item is substituted by `cloneItemsWithData`, whatever its content). -/
def itemPlaceholderNames (items : List CanvasItem) : List String :=
  items.flatMap (fun item =>
    if item.type = ItemType.TEXT then scanPlaceholders item.content.data else [])

theorem rowGet_cons_ne {k key : String} {v : String} {row : MergeRow} (h : k ≠ key) :
    rowGet ((k, v) :: row) key = rowGet row key := by
  simp [rowGet, List.find?, h]

/-- A convenience sample TEXT item for concrete instances. -/
def mkTextItem (id content : String) : CanvasItem :=
  { id := id, type := ItemType.TEXT, content := content, x := 0, y := 0,
    width := 100, height := 20, fontSize := none, fontFamily := none,
    fontWeight := none, fontStyle := none, textDecoration := none,
    color := none, textAlign := none }

/-- C9 (counterexample): the reserved key `__name` is not only used for
naming — its value is substituted into output item content whenever the
content contains a placeholder literally named `__name` (which the grammar
admits, `_` being a word character), so two rows differing only in `__name`
produce different substituted contents even though no field or placeholder
named `name` is involved. -/
theorem merge_C9_counterexample :
    cloneItemsWithData [mkTextItem "a" "{{__name}}"] [("__name", "X")]
      ≠ cloneItemsWithData [mkTextItem "a" "{{__name}}"] [("__name", "Y")]
    ∧ (cloneItemsWithData [mkTextItem "a" "{{__name}}"] [("__name", "X")]).map
        CanvasItem.content = ["X"] := by
  constructor
  · simp only [cloneItemsWithData, replacePlaceholders, mkTextItem, replaceChars_eval]
    decide
  · simp only [cloneItemsWithData, replacePlaceholders, mkTextItem, replaceChars_eval]
    decide

/-- C9 (amended): the reserved row keys `__name` and `name` are used to
derive the output name, and their values never enter any output item's
content through substitution unless a TEXT item's content contains a
placeholder literally named `__name` or `name`: when neither occurs as a
placeholder, dropping or changing those two keys leaves the substituted
item list unchanged. -/
theorem merge_C9_reserved_keys (items : List CanvasItem) (row : MergeRow) (v w : String)
    (h1 : "__name" ∉ itemPlaceholderNames items)
    (h2 : "name" ∉ itemPlaceholderNames items) :
    cloneItemsWithData items (("__name", v) :: ("name", w) :: row)
      = cloneItemsWithData items row := by
  simp only [cloneItemsWithData]
  refine List.map_congr_left ?_
  intro item hitem
  by_cases htype : item.type = ItemType.TEXT
  · rw [if_neg (by simp [htype]), if_neg (by simp [htype])]
    have hnames : ∀ nm ∈ scanPlaceholders item.content.data,
        nm ∈ itemPlaceholderNames items := by
      intro nm hnm
      rw [itemPlaceholderNames, List.mem_flatMap]
      exact ⟨item, hitem, by rw [if_pos htype]; exact hnm⟩
    have hrow : ∀ nm ∈ scanPlaceholders item.content.data,
        rowGet (("__name", v) :: ("name", w) :: row) nm = rowGet row nm := by
      intro nm hnm
      have hne1 : "__name" ≠ nm := fun h => h1 (h ▸ hnames nm hnm)
      have hne2 : "name" ≠ nm := fun h => h2 (h ▸ hnames nm hnm)
      rw [rowGet_cons_ne hne1, rowGet_cons_ne hne2]
    have : replaceChars (("__name", v) :: ("name", w) :: row) item.content.data
        = replaceChars row item.content.data := replaceChars_congr hrow
    rw [replacePlaceholders, replacePlaceholders]
    by_cases hc : item.content = ""
    · rw [if_pos hc, if_pos hc]
    · rw [if_neg hc, if_neg hc, this]
  · rw [if_pos htype, if_pos htype]

/-- C10: substitution is single-pass — replacing a leading placeholder
splices the row's value verbatim and continues scanning only in the text
after the marker, so placeholder markers inside a replacement value are
never themselves substituted. -/
theorem merge_C10_single_pass (row : MergeRow) (n : List Char) (v : String) (post : List Char)
    (hplain : PlainName n) (hv : rowGet row (String.mk n) = some v) :
    replaceChars row ('{' :: '{' :: (n ++ '}' :: '}' :: post))
      = v.data ++ replaceChars row post := by
  obtain ⟨hne, hw⟩ := hplain
  have hm := @matchPlaceholderAt_complete n post hne hw
  rw [replaceChars_cons_match hm]
  rw [rowValueOrEmpty, hv]

/-- C1: a merge request whose guards pass and whose template id resolves
succeeds; it creates and returns one template per row, in row order, and
every output carries role `filled`, the source's width and height, the
row-substituted item list, and the effective field set — the stored fields
when non-empty, otherwise extraction re-run on the current items — computed
once for the request and copied into every output without re-extraction. -/
theorem merge_C1_request (store : List Template) (tid : String) (fid : Option String)
    (rows : List MergeRow) (tpl : Template)
    (htid : tid ≠ "") (hrows : rows ≠ [])
    (hfind : store.find? (fun t => t.id = tid) = some tpl) :
    ∃ outs : List NewTemplate, mergeHandler store ⟨some tid, fid, some rows⟩ = Except.ok outs
      ∧ outs.length = rows.length
      ∧ ∀ (i : Nat) (row : MergeRow), rows[i]? = some row →
          ∃ out : NewTemplate, outs[i]? = some out
            ∧ out.role = Role.filled
            ∧ out.width = tpl.width
            ∧ out.height = tpl.height
            ∧ out.items = cloneItemsWithData tpl.items row
            ∧ out.fields
                = (if tpl.fields = [] then extractFieldsFromItems tpl.items else tpl.fields) := by
  have heff : (if tpl.fields ≠ [] then tpl.fields else extractFieldsFromItems tpl.items)
      = (if tpl.fields = [] then extractFieldsFromItems tpl.items else tpl.fields) := by
    by_cases h : tpl.fields = [] <;> simp [h]
  refine ⟨mergeRows tpl fid
    (if tpl.fields ≠ [] then tpl.fields else extractFieldsFromItems tpl.items) rows 0, ?_, ?_, ?_⟩
  · simp only [mergeHandler]
    rw [if_neg (by simp [htid, hrows]), hfind]
  · exact mergeRows_length tpl fid _ rows 0
  · intro i row hrow
    have hget := mergeRows_get tpl fid
      (if tpl.fields ≠ [] then tpl.fields else extractFieldsFromItems tpl.items) rows 0 i
    rw [hrow, Option.map_some'] at hget
    exact ⟨_, hget, rfl, rfl, rfl, rfl, heff⟩

/-- C2: for each row, in input order, the output name follows the chain —
the row's `__name` value, else (when that is absent or empty) its `name`
value, else the row's value at the first effective field's name; a present
candidate is trimmed and used only when non-empty after trimming, otherwise
the name falls back to `"<template name> #<1-based row index>"` — and every
output's folder is the explicit request folder id, else the source
template's folder id, else null. -/
theorem merge_C2_naming_and_folder (store : List Template) (tid : String)
    (fid : Option String) (rows : List MergeRow) (tpl : Template)
    (htid : tid ≠ "") (hrows : rows ≠ [])
    (hfind : store.find? (fun t => t.id = tid) = some tpl) :
    ∃ outs : List NewTemplate, mergeHandler store ⟨some tid, fid, some rows⟩ = Except.ok outs
      ∧ ∀ (i : Nat) (row : MergeRow), rows[i]? = some row →
          ∃ out : NewTemplate, outs[i]? = some out
            ∧ out.folderId = fid.or tpl.folderId
            ∧ out.name =
                (match
                  orFalsy (rowGet row "__name")
                    (orFalsy (rowGet row "name")
                      (match (if tpl.fields = [] then extractFieldsFromItems tpl.items
                              else tpl.fields).head? with
                       | some f0 => if f0.name = "" then none else rowGet row f0.name
                       | none => none)) with
                | some s =>
                  if s.trim ≠ "" then s.trim else tpl.name ++ " #" ++ toString (i + 1)
                | none => tpl.name ++ " #" ++ toString (i + 1)) := by
  have heff : (if tpl.fields ≠ [] then tpl.fields else extractFieldsFromItems tpl.items)
      = (if tpl.fields = [] then extractFieldsFromItems tpl.items else tpl.fields) := by
    by_cases h : tpl.fields = [] <;> simp [h]
  refine ⟨mergeRows tpl fid
    (if tpl.fields ≠ [] then tpl.fields else extractFieldsFromItems tpl.items) rows 0, ?_, ?_⟩
  · simp only [mergeHandler]
    rw [if_neg (by simp [htid, hrows]), hfind]
  · intro i row hrow
    have hget := mergeRows_get tpl fid
      (if tpl.fields ≠ [] then tpl.fields else extractFieldsFromItems tpl.items) rows 0 i
    rw [hrow, Option.map_some'] at hget
    refine ⟨_, hget, ?_, ?_⟩
    · cases fid <;> rfl
    · rw [heff]
      simp only [Nat.zero_add]
      have htrim : ∀ s : String, (s.trim.length ≠ 0) = (s.trim ≠ "") := by
        intro s
        by_cases h : s.trim = ""
        · simp [h, string_length_zero_iff]
        · simp only [h, ne_eq]
          simp [string_length_zero_iff, h]
      cases horf :
          orFalsy (rowGet row "__name")
            (orFalsy (rowGet row "name")
              (match (if tpl.fields = [] then extractFieldsFromItems tpl.items
                      else tpl.fields).head? with
               | some f0 => if f0.name = "" then none else rowGet row f0.name
               | none => none)) with
      | none => rfl
      | some sv =>
        simp only []
        by_cases hs : sv.trim = ""
        · rw [if_neg (by simp [string_length_zero_iff, hs]), if_neg (by simp [hs])]
        · rw [if_pos (by simp [string_length_zero_iff]; exact hs),
            if_pos (by simp [hs])]

/-- C8: a merge request fails with `validationFailure` when the template id
is missing (or empty, JS falsy) or the row list is missing, a non-array, or
empty; it fails with `notFound` when the guards pass but no template has the
given id; in both cases nothing is created. -/
theorem merge_C8_guards (store : List Template) (req : MergeRequest) :
    ((req.templateId = none ∨ req.templateId = some "" ∨ req.rows = none
        ∨ req.rows = some []) →
      mergeHandler store req = Except.error MergeError.validationFailure
        ∧ mergeCreatedTemplates store req = [])
    ∧ (∀ tid rows, req.templateId = some tid → tid ≠ "" →
        req.rows = some rows → rows ≠ [] →
        store.find? (fun t => t.id = tid) = none →
        mergeHandler store req = Except.error MergeError.notFound
          ∧ mergeCreatedTemplates store req = []) := by
  constructor
  · intro hbad
    have hfail : mergeHandler store req = Except.error MergeError.validationFailure := by
      match hreq : req with
      | ⟨none, _, _⟩ => rfl
      | ⟨some tid, _, none⟩ => rfl
      | ⟨some tid, fid, some rows⟩ =>
        have : tid = "" ∨ rows = [] := by
          rcases hbad with h | h | h | h
          · simp [hreq] at h
          · simp only [hreq] at h
            exact Or.inl (by injection h)
          · simp [hreq] at h
          · simp only [hreq] at h
            exact Or.inr (by injection h)
        simp only [mergeHandler]
        rw [if_pos this]
    exact ⟨hfail, by rw [mergeCreatedTemplates, hfail]⟩
  · intro tid rows htid hne hrows hrne hfind
    have hfail : mergeHandler store req = Except.error MergeError.notFound := by
      match hreq : req with
      | ⟨tid', fid, rows'⟩ =>
        simp only [hreq] at htid hrows
        subst htid; subst hrows
        simp only [mergeHandler]
        rw [if_neg (by simp [hne, hrne]), hfind]
    exact ⟨hfail, by rw [mergeCreatedTemplates, hfail]⟩

/-- C6: on a folder store with unique ids and an acyclic parent relation (the
data-model invariants), with enough fuel for the loop, the descendant
closure returns exactly the ids reachable from the root (the root included),
as the concatenation of the breadth-first levels — so the root is first and
the order is level by level — and a root without children yields exactly the
singleton of its own id. -/
theorem merge_C6_descendant_closure (store : List Folder) (root : String)
    (hN : (store.map Folder.id).Nodup) (hA : Acyclic store) :
    ∀ fuel, store.length + 1 ≤ fuel →
      (∀ x, x ∈ findDescendantFolderIds store root fuel ↔ Reachable store root x)
      ∧ (findDescendantFolderIds store root fuel).head? = some root
      ∧ (∃ k, levels store root k = []
          ∧ findDescendantFolderIds store root fuel
              = (List.range k).flatMap (levels store root))
      ∧ (childIds store root = [] → findDescendantFolderIds store root fuel = [root]) := by
  obtain ⟨k0, hk0⟩ := @exists_empty_level store root hN hA
  have hex : ∃ k, levels store root k = [] := ⟨k0, hk0⟩
  set k := Nat.find hex with hkdef
  have hk : levels store root k = [] := Nat.find_spec hex
  have hmin : ∀ d, d < k → levels store root d ≠ [] := fun d hd => Nat.find_min hex hd
  have hk1 : 1 ≤ k := by
    rcases Nat.eq_zero_or_pos k with h0 | h1
    · exfalso
      rw [h0] at hk
      simp [levels] at hk
    · exact h1
  have hcum : cumLevelFuel store root k ≤ store.length + 1 := cumLevelFuel_le root hN hA k
  intro fuel hfuel
  have hres : findDescendantFolderIds store root fuel = levelConcat store root k := by
    rw [findDescendantFolderIds, bfsRun_stable store root hk fuel (by omega)]
  refine ⟨?_, ?_, ?_, ?_⟩
  · intro x
    rw [hres, mem_levelConcat]
    constructor
    · rintro ⟨d, -, hx⟩
      exact mem_levels_reachable hx
    · intro hreach
      obtain ⟨n, hn⟩ := reachable_mem_levels hreach
      refine ⟨n, ?_, hn⟩
      by_contra hnk
      push_neg at hnk
      rw [levels_empty_of_le hk hnk] at hn
      cases hn
  · rw [hres]
    obtain ⟨t, ht⟩ := @levelConcat_head store root k hk1
    rw [ht]
    rfl
  · exact ⟨k, hk, by rw [hres]; rfl⟩
  · intro hchild
    have hlev1 : levels store root 1 = [] := by
      simp [levels, hchild]
    have hkle : k ≤ 1 := Nat.find_le hlev1
    have : k = 1 := by omega
    rw [hres, this]
    simp [levelConcat, levels, List.range_succ]

/-- C7: on a finite folder store with unique ids whose parent relation is
acyclic, the traversal loop terminates — after at most `store.length + 1`
dequeues the work queue is empty (the loop itself has no visited-set or
cycle guard; acyclicity is the precondition that makes this hold). -/
theorem merge_C7_termination (store : List Folder) (root : String)
    (hN : (store.map Folder.id).Nodup) (hA : Acyclic store) :
    ∀ fuel, store.length + 1 ≤ fuel →
      (bfsRun store fuel ([root], [root])).2 = [] := by
  obtain ⟨k0, hk0⟩ := @exists_empty_level store root hN hA
  have hex : ∃ k, levels store root k = [] := ⟨k0, hk0⟩
  have hk : levels store root (Nat.find hex) = [] := Nat.find_spec hex
  have hcum : cumLevelFuel store root (Nat.find hex) ≤ store.length + 1 :=
    cumLevelFuel_le root hN hA (Nat.find hex)
  intro fuel hfuel
  rw [bfsRun_stable store root hk fuel (by omega)]

/-! ## Concrete instances -/

/-- A sample stored template for concrete instances. -/
def tplW : Template :=
  { id := "t1", name := "Base", folderId := some "f", width := 10, height := 5,
    items := [], fields := [{ name := "sku", label := "sku", targetItemId := "a" }],
    role := Role.draft }

/-- A sample folder store: one folder `c` whose parent is the root `r`. -/
def sampleFolderStore : List Folder := [{ id := "c", parentId := some "r" }]

theorem sampleFolderStore_acyclic : Acyclic sampleFolderStore := by
  have hstep : ∀ a b, StepsTo sampleFolderStore a b → a = "r" ∧ b = "c" := by
    intro a b hab
    obtain ⟨f, hf, hp, hid⟩ := mem_childIds.mp hab
    have hfeq : f = { id := "c", parentId := some "r" } := by
      simpa [sampleFolderStore] using hf
    subst hfeq
    have ha : a = "r" := by simpa using hp.symm
    have hb : b = "c" := by simpa using hid.symm
    exact ⟨ha, hb⟩
  have htrans : ∀ a b, Relation.TransGen (StepsTo sampleFolderStore) a b → a = "r" ∧ b = "c" := by
    intro a b h
    induction h with
    | single hs => exact hstep _ _ hs
    | tail hab hbc ih => exact ⟨ih.1, (hstep _ _ hbc).2⟩
  intro x h
  obtain ⟨h1, h2⟩ := htrans x x h
  rw [h1] at h2
  exact absurd h2 (by decide)

/-- Witness for C1: one template, one row; the merge succeeds and creates
exactly one output. -/
theorem merge_C1_request_witness :
    ∃ outs : List NewTemplate,
      mergeHandler [tplW] ⟨some "t1", none, some [[("x", "y")]]⟩ = Except.ok outs
        ∧ outs.length = 1 := by
  obtain ⟨outs, h1, h2, h3⟩ :=
    merge_C1_request [tplW] "t1" none [[("x", "y")]] tplW (by decide) (by decide) (by decide)
  exact ⟨outs, h1, h2⟩

/-- Witness for C2: with no name-bearing row entry the output falls back to
`"Base #1"`, and the folder falls back to the template's folder. -/
theorem merge_C2_naming_witness :
    ∃ outs : List NewTemplate,
      mergeHandler [tplW] ⟨some "t1", none, some [[("x", "y")]]⟩ = Except.ok outs
        ∧ ∃ out : NewTemplate, outs[0]? = some out
            ∧ out.folderId = some "f" ∧ out.name = "Base #1" := by
  obtain ⟨outs, h1, h3⟩ :=
    merge_C2_naming_and_folder [tplW] "t1" none [[("x", "y")]] tplW
      (by decide) (by decide) (by decide)
  obtain ⟨out, hout, hfolder, hname⟩ := h3 0 [("x", "y")] rfl
  refine ⟨outs, h1, out, hout, ?_, ?_⟩
  · rw [hfolder]; decide
  · rw [hname]; decide

/-- Witness for C4: the marker `{{ab}}` at index 1 of `"x{{ab}}"` is
reported by the scan. -/
theorem merge_C4_witness : (1, "ab") ∈ scanPos ("x{{ab}}" : String).data 0 := by
  have h := (merge_C4_placeholder_grammar ("x{{ab}}" : String).data).1 1 "ab"
  exact h.mpr ⟨⟨by decide, by decide⟩, ['x'], [], by decide, by decide⟩

/-- Witness for C5: placeholder-free content is returned unchanged. -/
theorem merge_C5_witness :
    replacePlaceholders "plain text" [("user", "Ana")] = "plain text" := by
  have h := (merge_C5_row_substitution [] [("user", "Ana")]).2.2.2.2
  exact h "plain text" (by rw [scanPlaceholders_eval]; decide)

/-- Witness for C6: on the two-node store the closure of `r` is computed and
starts with `r`. -/
theorem merge_C6_witness :
    (∀ x, x ∈ findDescendantFolderIds sampleFolderStore "r" 2
        ↔ Reachable sampleFolderStore "r" x)
      ∧ (findDescendantFolderIds sampleFolderStore "r" 2).head? = some "r" := by
  have h := merge_C6_descendant_closure sampleFolderStore "r" (by decide)
    sampleFolderStore_acyclic 2 (by decide)
  exact ⟨h.1, h.2.1⟩

/-- Witness for C7: on the two-node store the queue is empty after two
iterations. -/
theorem merge_C7_witness : (bfsRun sampleFolderStore 2 (["r"], ["r"])).2 = [] :=
  merge_C7_termination sampleFolderStore "r" (by decide) sampleFolderStore_acyclic 2
    (by decide)

/-- Witness for C8: a request without a template id fails validation; a
request whose id resolves to nothing is a not-found failure. -/
theorem merge_C8_guards_witness :
    mergeHandler [] ⟨none, none, some [[("a", "b")]]⟩
        = Except.error MergeError.validationFailure
      ∧ mergeHandler [] ⟨some "t", none, some [[("a", "b")]]⟩
        = Except.error MergeError.notFound := by
  refine ⟨((merge_C8_guards [] ⟨none, none, some [[("a", "b")]]⟩).1 (Or.inl rfl)).1, ?_⟩
  exact ((merge_C8_guards [] ⟨some "t", none, some [[("a", "b")]]⟩).2 "t" [[("a", "b")]]
    rfl (by decide) rfl (by decide) (by decide)).1

/-- Witness for C9 (amended): when neither reserved name occurs as a
placeholder, the reserved entries do not influence substitution. -/
theorem merge_C9_reserved_keys_witness :
    cloneItemsWithData [mkTextItem "a" "Hi {{user}}"]
        (("__name", "X") :: ("name", "Y") :: [("user", "Ana")])
      = cloneItemsWithData [mkTextItem "a" "Hi {{user}}"] [("user", "Ana")] :=
  merge_C9_reserved_keys _ _ "X" "Y"
    (by simp only [itemPlaceholderNames, scanPlaceholders_eval]; decide)
    (by simp only [itemPlaceholderNames, scanPlaceholders_eval]; decide)

/-- Witness for C10: the value `"{{other}}"` is spliced verbatim for
`{{user}}` and is not itself substituted although the row knows `other`. -/
theorem merge_C10_single_pass_witness :
    replaceChars [("user", "{{other}}"), ("other", "X")]
        ('{' :: '{' :: ("user".data ++ '}' :: '}' :: []))
      = "{{other}}".data ++ replaceChars [("user", "{{other}}"), ("other", "X")] [] :=
  merge_C10_single_pass _ "user".data "{{other}}" [] ⟨by decide, by decide⟩ (by decide)

end TemBe
